import Mathlib

/-!
Verification of the vector-clock core (`src/vector_clock.rs`).

A clock is embedded as the stored sequence of timestamps, a `List Nat`;
machine `u32` timestamps are `Nat` with the explicit bound `u32Max`.
Every operation below is a direct translation of the corresponding Rust
function; fallible operations (panics) return `Option`.
-/

namespace VC

/-- `u32::MAX`, the largest representable timestamp. -/
def u32Max : Nat := 4294967295

/-- `2^32`, the number of representable `u32` values. -/
def u32Size : Nat := 4294967296

/-- `VectorIdx`, a newtype over `u32` (`struct VectorIdx(u32)`). -/
structure VectorIdx where
  val : Nat
  lt_size : val < u32Size

/-- `VectorIdx::to_u32`: expose the raw `u32`. -/
def VectorIdx.to_u32 (v : VectorIdx) : Nat := v.val

/-- `Idx::index for VectorIdx`: `usize::try_from(self.0).unwrap()`;
a `u32` always fits in `usize`, so this is the raw value. -/
def VectorIdx.index (v : VectorIdx) : Nat := v.val

/-- `Idx::new for VectorIdx`: `VectorIdx(u32::try_from(idx).unwrap())`.
The `unwrap` panics when the value does not fit in 32 bits: `none`. -/
def idx_new (n : Nat) : Option VectorIdx :=
  if h : n < u32Size then some ⟨n, h⟩ else none

/-- `From<u32> for VectorIdx`: wraps the raw value unchanged. -/
def from_u32 (n : Nat) (h : n < u32Size) : VectorIdx := ⟨n, h⟩

/-- The timestamp stored at position `i`, with implicit zero extension
beyond the stored sequence. -/
def slot : List Nat → Nat → Nat
  | [], _ => 0
  | a :: _, 0 => a
  | _ :: l, i + 1 => slot l i

/-- `get_mut_with_min_len`: zero-fill `resize` to at least `n` elements
(`if self.0.len() < min_len { self.0.resize(min_len, 0); }`). -/
def padTo (l : List Nat) (n : Nat) : List Nat :=
  if l.length < n then l ++ List.replicate (n - l.length) 0 else l

/-- `checked_add(1)` on a `u32` timestamp: `none` exactly at `u32::MAX`. -/
def checked_succ (v : Nat) : Option Nat :=
  if u32Max ≤ v then none else some (v + 1)

/-- `VClock::increment_index`: grow to length `idx+1`, then
`*idx_ref = idx_ref.checked_add(1).expect(..)`; overflow is `none`. -/
def increment_index (l : List Nat) (i : Nat) : Option (List Nat) :=
  match checked_succ (slot (padTo l (i + 1)) i) with
  | none => none
  | some v => some ((padTo l (i + 1)).set i v)

/-- `VClock::join`: grow `self` to at least `other`'s length, then take
the pointwise max over `other`'s elements, leaving the rest of `self`. -/
def join (l r : List Nat) : List Nat :=
  List.zipWith max (padTo l r.length) r ++ (padTo l r.length).drop r.length

/-- `VClock::set_at_index`: grow `self` to length `idx+1` and overwrite
slot `idx` with `other.as_slice()[idx]` — a panicking slice index, so the
operation is `none` when `idx` is outside `other`'s stored sequence. -/
def set_at_index (l r : List Nat) (i : Nat) : Option (List Nat) :=
  if i < r.length then some ((padTo l (i + 1)).set i (slot r i)) else none

/-- `VClock::set_zero_vector`: `self.0.clear()`. -/
def set_zero_vector (l : List Nat) : List Nat := []

/-- `VClock::is_zero_vector`: `self.0.is_empty()`. -/
def is_zero_vector (l : List Nat) : Bool := l.isEmpty

/-- `Clone::clone for VClock`: copy the stored sequence. -/
def clone (l : List Nat) : List Nat := l

/-- `Clone::clone_from for VClock`: `self.0.clear()` followed by
`self.0.extend_from_slice(source_slice)`. -/
def clone_from (t s : List Nat) : List Nat := ([] : List Nat) ++ s

/-- `Index<VectorIdx> for VClock`:
`self.as_slice().get(index).unwrap_or(&0)`. -/
def vindex (l : List Nat) (i : Nat) : Nat := (l.get? i).getD 0

/-- The canonicalization invariant: the stored sequence's last element,
if any, is non-zero. -/
def canonical (l : List Nat) : Prop := l.getLast? ≠ some 0

instance decCanonical (l : List Nat) : Decidable (canonical l) :=
  inferInstanceAs (Decidable (l.getLast? ≠ some 0))

/-- Well-formedness of the stored timestamps: each fits in a `u32`. -/
def wf (l : List Nat) : Prop := ∀ x ∈ l, x ≤ u32Max

instance decWf (l : List Nat) : Decidable (wf l) :=
  inferInstanceAs (Decidable (∀ x ∈ l, x ≤ u32Max))

/-- The pointwise (product) order on clocks under zero extension. -/
def leV (l r : List Nat) : Prop := ∀ i, slot l i ≤ slot r i

/-- Pointwise equality of clock values under zero extension. -/
def eqV (l r : List Nat) : Prop := ∀ i, slot l i = slot r i

/-- `u32::cmp` on timestamps. -/
def cmpN (a b : Nat) : Ordering :=
  if a < b then .lt else if a = b then .eq else .gt

/-- The lockstep scan of `PartialOrd::partial_cmp for VClock`: walk the
zipped slices refining the running `order`, returning `none` on mixed
evidence. The initial `iter.next()` step is the first `.eq` iteration. -/
def pcLoop : Ordering → List Nat → List Nat → Option Ordering
  | ord, a :: ls, b :: rs =>
    match ord with
    | Ordering.eq => pcLoop (cmpN a b) ls rs
    | Ordering.lt => if b < a then none else pcLoop Ordering.lt ls rs
    | Ordering.gt => if a < b then none else pcLoop Ordering.gt ls rs
  | ord, _, _ => some ord

/-- The final `match` of `partial_cmp`: resolve trailing elements from
the length comparison (first argument) and the running order (second). -/
def lenResolve : Ordering → Ordering → Option Ordering
  | Ordering.eq, ord => some ord
  | Ordering.lt, Ordering.lt => some Ordering.lt
  | Ordering.lt, Ordering.eq => some Ordering.lt
  | Ordering.lt, Ordering.gt => none
  | Ordering.gt, Ordering.gt => some Ordering.gt
  | Ordering.gt, Ordering.eq => some Ordering.gt
  | Ordering.gt, Ordering.lt => none

/-- `PartialOrd::partial_cmp for VClock`: the lockstep scan followed by
the length comparison that resolves trailing elements by the invariant. -/
def pcmp (l r : List Nat) : Option Ordering :=
  match pcLoop Ordering.eq l r with
  | none => none
  | some ord => lenResolve (cmpN l.length r.length) ord

/-- The scan of `PartialOrd::lt for VClock`: return `false` on any
`l > r` pair, drop the `equal` flag on any `l < r` pair, finish `!equal`. -/
def ltLoop : Bool → List Nat → List Nat → Bool
  | equal, a :: ls, b :: rs =>
    if b < a then false else ltLoop (equal && !(decide (a < b))) ls rs
  | equal, _, _ => !equal

/-- `PartialOrd::lt for VClock`: length guard, then the scan. -/
def ltB (l r : List Nat) : Bool :=
  if l.length ≤ r.length then ltLoop (l.length == r.length) l r else false

/-- The scan of `PartialOrd::le for VClock`:
`!lhs.iter().zip(rhs.iter()).any(|(&l, &r)| l > r)`. -/
def leLoop : List Nat → List Nat → Bool
  | a :: ls, b :: rs => if b < a then false else leLoop ls rs
  | _, _ => true

/-- `PartialOrd::le for VClock`: length guard, then the scan. -/
def leB (l r : List Nat) : Bool :=
  if l.length ≤ r.length then leLoop l r else false

/-- The scan of `PartialOrd::gt for VClock`: mirror image of `ltLoop`. -/
def gtLoop : Bool → List Nat → List Nat → Bool
  | equal, a :: ls, b :: rs =>
    if a < b then false else gtLoop (equal && !(decide (b < a))) ls rs
  | equal, _, _ => !equal

/-- `PartialOrd::gt for VClock`: length guard, then the scan. -/
def gtB (l r : List Nat) : Bool :=
  if r.length ≤ l.length then gtLoop (l.length == r.length) l r else false

/-- The scan of `PartialOrd::ge for VClock`:
`!lhs.iter().zip(rhs.iter()).any(|(&l, &r)| l < r)`. -/
def geLoop : List Nat → List Nat → Bool
  | a :: ls, b :: rs => if a < b then false else geLoop ls rs
  | _, _ => true

/-- `PartialOrd::ge for VClock`: length guard, then the scan. -/
def geB (l r : List Nat) : Bool :=
  if r.length ≤ l.length then geLoop l r else false

/-- Pointwise `≤` over the shared (zipped) prefix of the two sequences. -/
def zle (l r : List Nat) : Prop :=
  ∀ i < min l.length r.length, slot l i ≤ slot r i

/-- Pointwise equality over the shared (zipped) prefix. -/
def zeq (l r : List Nat) : Prop :=
  ∀ i < min l.length r.length, slot l i = slot r i

/-- Pointwise `≥` over the shared (zipped) prefix. -/
def zge (l r : List Nat) : Prop :=
  ∀ i < min l.length r.length, slot r i ≤ slot l i

instance decZle (l r : List Nat) : Decidable (zle l r) :=
  inferInstanceAs (Decidable (∀ i < min l.length r.length, slot l i ≤ slot r i))

instance decZeq (l r : List Nat) : Decidable (zeq l r) :=
  inferInstanceAs (Decidable (∀ i < min l.length r.length, slot l i = slot r i))

instance decZge (l r : List Nat) : Decidable (zge l r) :=
  inferInstanceAs (Decidable (∀ i < min l.length r.length, slot r i ≤ slot l i))

/-! Basic facts about `slot` and `padTo`. -/

theorem slot_nil (i : Nat) : slot [] i = 0 := rfl

theorem slot_cons_zero (a : Nat) (l : List Nat) : slot (a :: l) 0 = a := rfl

theorem slot_cons_succ (a : Nat) (l : List Nat) (i : Nat) :
    slot (a :: l) (i + 1) = slot l i := rfl

theorem slot_of_length_le (l : List Nat) (i : Nat) (h : l.length ≤ i) :
    slot l i = 0 := by
  induction l generalizing i with
  | nil => rfl
  | cons a ls ih =>
    cases i with
    | zero => simp at h
    | succ j => exact ih j (by simpa using h)

theorem slot_replicate_zero (n i : Nat) : slot (List.replicate n 0) i = 0 := by
  induction n generalizing i with
  | zero => rfl
  | succ m ih =>
    cases i with
    | zero => rfl
    | succ j => simpa [List.replicate_succ] using ih j

theorem padTo_length (l : List Nat) (n : Nat) :
    (padTo l n).length = max l.length n := by
  unfold padTo
  split <;> simp <;> omega

theorem slot_append (l m : List Nat) (i : Nat) :
    slot (l ++ m) i = if i < l.length then slot l i else slot m (i - l.length) := by
  induction l generalizing i with
  | nil => simp
  | cons a ls ih =>
    cases i with
    | zero => simp [slot_cons_zero]
    | succ j => simpa [slot_cons_succ, Nat.succ_sub_succ] using ih j

theorem slot_padTo (l : List Nat) (n i : Nat) :
    slot (padTo l n) i = slot l i := by
  unfold padTo
  split
  · rw [slot_append]
    split
    · rfl
    · rw [slot_replicate_zero]
      exact (slot_of_length_le l i (by omega)).symm
  · rfl

theorem slot_set_self (l : List Nat) (i v : Nat) (h : i < l.length) :
    slot (l.set i v) i = v := by
  induction l generalizing i with
  | nil => simp at h
  | cons a ls ih =>
    cases i with
    | zero => rfl
    | succ j => simpa [List.set, slot_cons_succ] using ih j (by simpa using h)

theorem slot_set_other (l : List Nat) (i v j : Nat) (h : j ≠ i) :
    slot (l.set i v) j = slot l j := by
  induction l generalizing i j with
  | nil => rfl
  | cons a ls ih =>
    cases i with
    | zero =>
      cases j with
      | zero => exact absurd rfl h
      | succ k => rfl
    | succ i2 =>
      cases j with
      | zero => rfl
      | succ k =>
        simpa [List.set, slot_cons_succ] using ih i2 k (by omega)

/-! Canonicality via `slot`. -/

theorem canonical_nil : canonical [] := by
  simp [canonical]

theorem canonical_last_pos (l : List Nat) (hl : canonical l) (hne : l ≠ []) :
    0 < slot l (l.length - 1) := by
  induction l with
  | nil => exact absurd rfl hne
  | cons a ls ih =>
    cases ls with
    | nil =>
      simp only [canonical, List.getLast?_singleton] at hl
      have : a ≠ 0 := by intro h2; exact hl (by rw [h2])
      simpa [slot_cons_zero] using Nat.pos_of_ne_zero this
    | cons b ms =>
      have hl2 : canonical (b :: ms) := by
        simpa [canonical, List.getLast?_cons_cons] using hl
      have := ih hl2 (by simp)
      simpa [slot_cons_succ] using this

theorem canonical_of_last_pos (l : List Nat)
    (h : l = [] ∨ 0 < slot l (l.length - 1)) : canonical l := by
  induction l with
  | nil => exact canonical_nil
  | cons a ls ih =>
    rcases h with h | h
    · exact absurd h (by simp)
    cases ls with
    | nil =>
      simp only [List.length_singleton, Nat.sub_self, slot_cons_zero] at h
      simp only [canonical, List.getLast?_singleton]
      intro h2
      have : a = 0 := by injection h2
      omega
    | cons b ms =>
      have : 0 < slot (b :: ms) ((b :: ms).length - 1) := by
        have hlen : (a :: b :: ms).length - 1 = ((b :: ms).length - 1) + 1 := by
          simp
        rw [hlen, slot_cons_succ] at h
        exact h
      have := ih (Or.inr this)
      simpa [canonical, List.getLast?_cons_cons] using this

/-! Structural equations for `padTo` and `join`, and the pointwise
characterization of `join`. -/

theorem padTo_zero (l : List Nat) : padTo l 0 = l := by
  simp [padTo]

theorem padTo_nil (n : Nat) : padTo [] n = List.replicate n 0 := by
  cases n with
  | zero => rfl
  | succ m => simp [padTo]

theorem padTo_cons (a : Nat) (l : List Nat) (n : Nat) :
    padTo (a :: l) (n + 1) = a :: padTo l n := by
  unfold padTo
  by_cases h : l.length < n
  · rw [if_pos (by simpa using Nat.succ_lt_succ h), if_pos h]
    simp [Nat.succ_sub_succ]
  · rw [if_neg (by simpa using fun h2 => h (Nat.lt_of_succ_lt_succ h2)), if_neg h]

theorem join_nil_right (l : List Nat) : join l [] = l := by
  simp [join, padTo_zero]

theorem join_nil_left (r : List Nat) : join [] r = r := by
  induction r with
  | nil => rfl
  | cons b rs ih =>
    have h1 : padTo ([] : List Nat) (b :: rs).length
        = 0 :: List.replicate rs.length 0 := by
      rw [padTo_nil]
      simp [List.replicate_succ]
    have h2 : padTo ([] : List Nat) rs.length = List.replicate rs.length 0 :=
      padTo_nil _
    simp only [join, h1, List.length_cons, List.zipWith_cons_cons,
      List.drop_succ_cons] at *
    rw [← h2]
    simpa [Nat.zero_max] using ih

theorem join_cons_cons (a b : Nat) (ls rs : List Nat) :
    join (a :: ls) (b :: rs) = max a b :: join ls rs := by
  simp [join, List.length_cons, padTo_cons, List.zipWith_cons_cons,
    List.drop_succ_cons]

theorem join_length (l r : List Nat) :
    (join l r).length = max l.length r.length := by
  induction l generalizing r with
  | nil => simp [join_nil_left]
  | cons a ls ih =>
    cases r with
    | nil => simp [join_nil_right]
    | cons b rs =>
      simp only [join_cons_cons, List.length_cons, ih]
      omega

theorem slot_join (l r : List Nat) (i : Nat) :
    slot (join l r) i = max (slot l i) (slot r i) := by
  induction l generalizing r i with
  | nil => simp [join_nil_left, slot_nil]
  | cons a ls ih =>
    cases r with
    | nil => simp [join_nil_right, slot_nil]
    | cons b rs =>
      cases i with
      | zero => simp [join_cons_cons, slot_cons_zero]
      | succ j => simp [join_cons_cons, slot_cons_succ, ih]

/-- Two stored sequences of the same length with the same slots are
equal as sequences. -/
theorem eq_of_slot_eq (l r : List Nat) (hlen : l.length = r.length)
    (h : ∀ i, slot l i = slot r i) : l = r := by
  induction l generalizing r with
  | nil =>
    cases r with
    | nil => rfl
    | cons b rs => simp at hlen
  | cons a ls ih =>
    cases r with
    | nil => simp at hlen
    | cons b rs =>
      have h0 : a = b := by simpa [slot_cons_zero] using h 0
      have ht : ls = rs := by
        refine ih rs (by simpa using hlen) fun i => ?_
        simpa [slot_cons_succ] using h (i + 1)
      rw [h0, ht]

/-! Unfolding lemmas for `increment_index` and `set_at_index`. -/

theorem increment_index_eq (l : List Nat) (i : Nat) :
    increment_index l i =
      if u32Max ≤ slot l i then none
      else some ((padTo l (i + 1)).set i (slot l i + 1)) := by
  unfold increment_index checked_succ
  rw [slot_padTo]
  split <;> simp_all

theorem slot_mem (l : List Nat) (i : Nat) (h : i < l.length) : slot l i ∈ l := by
  induction l generalizing i with
  | nil => simp at h
  | cons a ls ih =>
    cases i with
    | zero => simp [slot_cons_zero]
    | succ j =>
      rw [slot_cons_succ]
      exact List.mem_cons_of_mem a (ih j (by simpa using h))

theorem slot_le_of_wf (l : List Nat) (i : Nat) (h : wf l) :
    slot l i ≤ u32Max := by
  rcases Nat.lt_or_ge i l.length with hi | hi
  · exact h _ (slot_mem l i hi)
  · rw [slot_of_length_le l i hi]
    exact Nat.zero_le _

theorem increment_index_some (l : List Nat) (i : Nat)
    (h : slot l i < u32Max) :
    increment_index l i = some ((padTo l (i + 1)).set i (slot l i + 1)) := by
  rw [increment_index_eq, if_neg (by omega)]

theorem slot_increment_self (l : List Nat) (i : Nat) :
    slot ((padTo l (i + 1)).set i (slot l i + 1)) i = slot l i + 1 := by
  apply slot_set_self
  rw [padTo_length]
  omega

theorem slot_increment_other (l : List Nat) (i j : Nat) (h : j ≠ i) :
    slot ((padTo l (i + 1)).set i (slot l i + 1)) j = slot l j := by
  rw [slot_set_other _ _ _ _ h, slot_padTo]

/-! ### C5: join is a join-semilattice operation -/

/-- C5: for canonical clocks, `join` is idempotent, commutative,
associative, and both arguments are below the join in the pointwise
order (join never decreases any slot). -/
theorem C5_join_semilattice (a b c : List Nat)
    (ha : canonical a) (hb : canonical b) (hc : canonical c) :
    join a a = a ∧ join a b = join b a ∧
    join (join a b) c = join a (join b c) ∧
    leV a (join a b) ∧ leV b (join a b) := by
  refine ⟨?_, ?_, ?_, ?_, ?_⟩
  · exact eq_of_slot_eq _ _ (by rw [join_length]; omega)
      fun i => by rw [slot_join]; omega
  · exact eq_of_slot_eq _ _ (by rw [join_length, join_length]; omega)
      fun i => by rw [slot_join, slot_join]; omega
  · exact eq_of_slot_eq _ _
      (by rw [join_length, join_length, join_length, join_length]; omega)
      fun i => by
        rw [slot_join, slot_join, slot_join, slot_join]; omega
  · intro i; rw [slot_join]; omega
  · intro i; rw [slot_join]; omega

/-- Witness for C5 at the concrete canonical clocks
`[2]`, `[1, 3]`, `[4]`. -/
theorem C5_join_witness :
    join [2] [2] = [2] ∧ join [2] [1, 3] = join [1, 3] [2] ∧
    join (join [2] [1, 3]) [4] = join [2] (join [1, 3] [4]) ∧
    leV [2] (join [2] [1, 3]) ∧ leV [1, 3] (join [2] [1, 3]) :=
  C5_join_semilattice [2] [1, 3] [4] (by decide) (by decide) (by decide)

/-! ### C6: increment is strictly monotone with a one-slot frame -/

/-- C6: below the overflow bound, `increment_index i` produces a clock
strictly greater in the pointwise order, agreeing with the old clock at
every slot other than `i`. -/
theorem C6_increment_monotone (l : List Nat) (i : Nat)
    (hl : canonical l) (h : slot l i < u32Max) :
    ∃ l2, increment_index l i = some l2 ∧ leV l l2 ∧ ¬ eqV l l2 ∧
      ∀ j, j ≠ i → slot l2 j = slot l j := by
  refine ⟨(padTo l (i + 1)).set i (slot l i + 1),
    increment_index_some l i h, ?_, ?_, ?_⟩
  · intro j
    rcases eq_or_ne j i with hj | hj
    · subst hj; rw [slot_increment_self]; omega
    · rw [slot_increment_other l i j hj]
  · intro he
    have := he i
    rw [slot_increment_self] at this
    omega
  · exact fun j hj => slot_increment_other l i j hj

/-- Witness for C6 at the canonical clock `[3]` and index `1`. -/
theorem C6_increment_witness :
    ∃ l2, increment_index [3] 1 = some l2 ∧ leV [3] l2 ∧ ¬ eqV [3] l2 ∧
      ∀ j, j ≠ 1 → slot l2 j = slot [3] j :=
  C6_increment_monotone [3] 1 (by decide) (by decide)

/-! ### C7: increment fails exactly on timestamp overflow -/

/-- C7: for a clock whose timestamps fit in the 32-bit range,
`increment_index i` fails iff the timestamp at slot `i` is `u32::MAX`;
otherwise it stores back the old timestamp plus one (no silent wrap). -/
theorem C7_increment_overflow (l : List Nat) (i : Nat) (hwf : wf l) :
    (increment_index l i = none ↔ slot l i = u32Max) ∧
    ∀ l2, increment_index l i = some l2 → slot l2 i = slot l i + 1 := by
  constructor
  · rw [increment_index_eq]
    have := slot_le_of_wf l i hwf
    split
    · simp; omega
    · simp; omega
  · intro l2 h2
    rw [increment_index_eq] at h2
    split at h2
    · exact absurd h2 (by simp)
    · have : l2 = (padTo l (i + 1)).set i (slot l i + 1) := by
        injection h2 with h3
        exact h3.symm
      rw [this, slot_increment_self]

/-- Witness for C7: overflow at `u32::MAX`, and a normal increment. -/
theorem C7_increment_witness :
    increment_index [u32Max] 0 = none ∧
    ∀ l2, increment_index [3] 0 = some l2 → slot l2 0 = slot [3] 0 + 1 :=
  ⟨(C7_increment_overflow [u32Max] 0 (by decide)).1.mpr (by decide),
   (C7_increment_overflow [3] 0 (by decide)).2⟩

/-! ### C8: indexing is total with implicit zero extension -/

/-- C8: `Index<VectorIdx>` returns the stored timestamp inside the
stored sequence and the zero default beyond it; it never fails. -/
theorem C8_index_zero_extension (l : List Nat) (i : Nat) :
    vindex l i = if h : i < l.length then l.get ⟨i, h⟩ else 0 := by
  unfold vindex
  split
  · rw [List.get?_eq_get]
    rfl
  · rw [List.get?_eq_none.mpr (by omega)]
    rfl

/-! ### C9: vector-index conversions round-trip exactly -/

/-- C9: every value below `2^32` constructs a `VectorIdx` whose `to_u32`
and `index` conversions both return it (and agree); construction from a
value outside the 32-bit range fails loudly. -/
theorem C9_vector_idx_roundtrip (n : Nat) :
    (n < u32Size →
      ∃ v, idx_new n = some v ∧ VectorIdx.to_u32 v = n ∧
        VectorIdx.index v = n ∧ VectorIdx.index v = VectorIdx.to_u32 v ∧
        ∀ h : n < u32Size, from_u32 n h = v) ∧
    (u32Size ≤ n → idx_new n = none) := by
  constructor
  · intro h
    exact ⟨⟨n, h⟩, by simp [idx_new, h], rfl, rfl, rfl, fun _ => rfl⟩
  · intro h
    simp only [idx_new, dif_neg (by omega : ¬ n < u32Size)]

/-- Witness for C9 at `7` (round-trip) and `2^32` (loud failure). -/
theorem C9_vector_idx_witness :
    (∃ v, idx_new 7 = some v ∧ VectorIdx.to_u32 v = 7 ∧
      VectorIdx.index v = 7 ∧ VectorIdx.index v = VectorIdx.to_u32 v ∧
      ∀ h : 7 < u32Size, from_u32 7 h = v) ∧
    idx_new 4294967296 = none :=
  ⟨(C9_vector_idx_roundtrip 7).1 (by decide),
   (C9_vector_idx_roundtrip 4294967296).2 (by decide)⟩

/-! ### C10: the optimized clone_from equals the derived clone -/

/-- C10: `clone_from` leaves the target equal to the source and to the
source's `clone`, for every prior target value. -/
theorem C10_clone_from_equiv (t s : List Nat) :
    clone_from t s = s ∧ clone_from t s = clone s :=
  ⟨rfl, rfl⟩

/-! ### C4 (corrected): set_at_index fails outside the source's length -/

/-- Counterexample to C4 as stated: on two canonical clocks (both the
all-zero clock) and index `0`, `set_at_index` panics (models as `none`)
because it indexes `other.as_slice()[0]` out of bounds. -/
theorem C4_set_at_index_fails :
    canonical ([] : List Nat) ∧ set_at_index [] [] 0 = none :=
  ⟨by decide, rfl⟩

/-- C4 amended: `set_at_index other i` succeeds iff `i` lies inside
`other`'s stored sequence; on success it grows `self` as necessary,
copies `other`'s slot `i`, and leaves every other slot unchanged. -/
theorem C4_set_at_index_amended (l r : List Nat) (i : Nat) :
    (set_at_index l r i = none ↔ r.length ≤ i) ∧
    ∀ l2, set_at_index l r i = some l2 →
      l2.length = max l.length (i + 1) ∧ slot l2 i = slot r i ∧
      ∀ j, j ≠ i → slot l2 j = slot l j := by
  constructor
  · unfold set_at_index
    split
    · simp; omega
    · simp; omega
  · intro l2 h2
    unfold set_at_index at h2
    split at h2
    · have hl2 : l2 = (padTo l (i + 1)).set i (slot r i) := by
        injection h2 with h3
        exact h3.symm
      subst hl2
      refine ⟨by simp [padTo_length], ?_, ?_⟩
      · exact slot_set_self _ _ _ (by rw [padTo_length]; omega)
      · intro j hj
        rw [slot_set_other _ _ _ _ hj, slot_padTo]
    · exact absurd h2 (by simp)

/-- Witness for the amended C4: failing and succeeding instantiation. -/
theorem C4_set_at_index_witness :
    set_at_index [1] [] 5 = none :=
  (C4_set_at_index_amended [1] [] 5).1.mpr (by decide)

/-! ### C3 (corrected): canonicalization under the mutators -/

/-- Counterexample to C3 as stated: both inputs are canonical, yet
`set_at_index` copies the zero stored at `other[0]` into a freshly grown
last slot, producing `[0]`, whose last element is zero. -/
theorem C3_set_at_index_breaks_invariant :
    canonical ([] : List Nat) ∧ canonical [0, 1] ∧
    set_at_index [] [0, 1] 0 = some [0] ∧ ¬ canonical [0] := by
  refine ⟨by decide, by decide, ?_, by decide⟩
  decide

/-- C3 amended: `increment_index`, `join` and `set_zero_vector` always
preserve the canonicalization invariant, and the all-zero clock is only
representable by the empty sequence; `set_at_index` preserves it only
when the overwritten slot is not the new last slot or the copied
timestamp is non-zero. -/
theorem C3_mutators_canonical_amended :
    (∀ l i l2, canonical l → increment_index l i = some l2 → canonical l2) ∧
    (∀ l r, canonical l → canonical r → canonical (join l r)) ∧
    (∀ l r i l2, canonical l → (i + 1 < l.length ∨ 0 < slot r i) →
      set_at_index l r i = some l2 → canonical l2) ∧
    (∀ l, canonical (set_zero_vector l)) ∧
    (∀ l, canonical l → (∀ i, slot l i = 0) → l = []) := by
  refine ⟨?_, ?_, ?_, ?_, ?_⟩
  · intro l i l2 hl h2
    rw [increment_index_eq] at h2
    split at h2
    · exact absurd h2 (by simp)
    have hl2 : l2 = (padTo l (i + 1)).set i (slot l i + 1) := by
      injection h2 with h3
      exact h3.symm
    subst hl2
    have hlen : ((padTo l (i + 1)).set i (slot l i + 1)).length
        = max l.length (i + 1) := by simp [padTo_length]
    apply canonical_of_last_pos
    rcases Nat.lt_or_ge (i + 1) l.length with hc | hc
    · refine Or.inr ?_
      rw [hlen]
      have hmax : max l.length (i + 1) = l.length := by omega
      rw [hmax, slot_increment_other l i _ (by omega)]
      exact canonical_last_pos l hl (by intro h0; subst h0; simp at hc)
    · refine Or.inr ?_
      rw [hlen]
      have hmax : max l.length (i + 1) = i + 1 := by omega
      rw [hmax]
      simp only [Nat.add_sub_cancel]
      rw [slot_increment_self]
      omega
  · intro l r hl hr
    rcases eq_or_ne l [] with hle | hle
    · subst hle; rw [join_nil_left]; exact hr
    apply canonical_of_last_pos
    refine Or.inr ?_
    rw [join_length, slot_join]
    have hlp := canonical_last_pos l hl hle
    rcases Nat.le_total r.length l.length with hc | hc
    · have : max l.length r.length - 1 = l.length - 1 := by omega
      rw [this]
      omega
    · rcases eq_or_ne r [] with hre | hre
      · subst hre
        simp only [List.length_nil, Nat.le_zero] at hc
        exact absurd (List.eq_nil_of_length_eq_zero hc) hle
      have hrp := canonical_last_pos r hr hre
      have : max l.length r.length - 1 = r.length - 1 := by omega
      rw [this]
      omega
  · intro l r i l2 hl hcond h2
    unfold set_at_index at h2
    split at h2
    · have hl2 : l2 = (padTo l (i + 1)).set i (slot r i) := by
        injection h2 with h3
        exact h3.symm
      subst hl2
      have hlen : ((padTo l (i + 1)).set i (slot r i)).length
          = max l.length (i + 1) := by simp [padTo_length]
      apply canonical_of_last_pos
      rcases Nat.lt_or_ge (i + 1) l.length with hc | hc
      · refine Or.inr ?_
        rw [hlen]
        have hmax : max l.length (i + 1) = l.length := by omega
        rw [hmax, slot_set_other _ _ _ _ (by omega), slot_padTo]
        exact canonical_last_pos l hl (by intro h0; subst h0; simp at hc)
      · refine Or.inr ?_
        rw [hlen]
        have hmax : max l.length (i + 1) = i + 1 := by omega
        rw [hmax]
        simp only [Nat.add_sub_cancel]
        rw [slot_set_self _ _ _ (by rw [padTo_length]; omega)]
        omega
    · exact absurd h2 (by simp)
  · intro l
    exact canonical_nil
  · intro l hl hz
    by_contra hne
    have := canonical_last_pos l hl hne
    rw [hz (l.length - 1)] at this
    omega

/-- Witness for the amended C3: join of concrete canonical clocks. -/
theorem C3_canonical_witness : canonical (join [1] [0, 2]) :=
  C3_mutators_canonical_amended.2.1 [1] [0, 2] (by decide) (by decide)

/-! Structural lemmas for the zipped-prefix predicates. -/

theorem zle_nil_left (r : List Nat) : zle [] r := by
  intro i hi
  simp at hi

theorem zle_nil_right (l : List Nat) : zle l [] := by
  intro i hi
  simp at hi

theorem zeq_nil_left (r : List Nat) : zeq [] r := by
  intro i hi
  simp at hi

theorem zeq_nil_right (l : List Nat) : zeq l [] := by
  intro i hi
  simp at hi

theorem zge_nil_left (r : List Nat) : zge [] r := by
  intro i hi
  simp at hi

theorem zge_nil_right (l : List Nat) : zge l [] := by
  intro i hi
  simp at hi

theorem zle_cons (a b : Nat) (ls rs : List Nat) :
    zle (a :: ls) (b :: rs) ↔ a ≤ b ∧ zle ls rs := by
  unfold zle
  simp only [List.length_cons]
  constructor
  · intro h
    refine ⟨by simpa [slot_cons_zero] using h 0 (by omega), fun i hi => ?_⟩
    simpa [slot_cons_succ] using h (i + 1) (by omega)
  · rintro ⟨h0, h⟩ i hi
    cases i with
    | zero => simpa [slot_cons_zero] using h0
    | succ j =>
      simp only [slot_cons_succ]
      exact h j (by omega)

theorem zeq_cons (a b : Nat) (ls rs : List Nat) :
    zeq (a :: ls) (b :: rs) ↔ a = b ∧ zeq ls rs := by
  unfold zeq
  simp only [List.length_cons]
  constructor
  · intro h
    refine ⟨by simpa [slot_cons_zero] using h 0 (by omega), fun i hi => ?_⟩
    simpa [slot_cons_succ] using h (i + 1) (by omega)
  · rintro ⟨h0, h⟩ i hi
    cases i with
    | zero => simpa [slot_cons_zero] using h0
    | succ j =>
      simp only [slot_cons_succ]
      exact h j (by omega)

theorem zge_cons (a b : Nat) (ls rs : List Nat) :
    zge (a :: ls) (b :: rs) ↔ b ≤ a ∧ zge ls rs := by
  unfold zge
  simp only [List.length_cons]
  constructor
  · intro h
    refine ⟨by simpa [slot_cons_zero] using h 0 (by omega), fun i hi => ?_⟩
    simpa [slot_cons_succ] using h (i + 1) (by omega)
  · rintro ⟨h0, h⟩ i hi
    cases i with
    | zero => simpa [slot_cons_zero] using h0
    | succ j =>
      simp only [slot_cons_succ]
      exact h j (by omega)

theorem zeq_zle (l r : List Nat) (h : zeq l r) : zle l r :=
  fun i hi => (h i hi).le

theorem zeq_zge (l r : List Nat) (h : zeq l r) : zge l r :=
  fun i hi => (h i hi).ge

theorem zeq_of_zle_zge (l r : List Nat) (h1 : zle l r) (h2 : zge l r) :
    zeq l r :=
  fun i hi => Nat.le_antisymm (h1 i hi) (h2 i hi)

theorem option_ordering_cases (o : Option Ordering) :
    o = some Ordering.eq ∨ o = some Ordering.lt ∨ o = some Ordering.gt ∨
      o = none := by
  rcases o with _ | o
  · exact Or.inr (Or.inr (Or.inr rfl))
  · cases o
    · exact Or.inr (Or.inl rfl)
    · exact Or.inl rfl
    · exact Or.inr (Or.inr (Or.inl rfl))

/-! Characterization of the lockstep scan `pcLoop`. -/

theorem pcLoop_lt_cases (l r : List Nat) :
    pcLoop Ordering.lt l r = some Ordering.lt ∨
      pcLoop Ordering.lt l r = none := by
  induction l generalizing r with
  | nil => exact Or.inl rfl
  | cons a ls ih =>
    cases r with
    | nil => exact Or.inl rfl
    | cons b rs =>
      simp only [pcLoop]
      split
      · exact Or.inr rfl
      · exact ih rs

theorem pcLoop_gt_cases (l r : List Nat) :
    pcLoop Ordering.gt l r = some Ordering.gt ∨
      pcLoop Ordering.gt l r = none := by
  induction l generalizing r with
  | nil => exact Or.inl rfl
  | cons a ls ih =>
    cases r with
    | nil => exact Or.inl rfl
    | cons b rs =>
      simp only [pcLoop]
      split
      · exact Or.inr rfl
      · exact ih rs

theorem pcLoop_lt_iff (l r : List Nat) :
    pcLoop Ordering.lt l r = some Ordering.lt ↔ zle l r := by
  induction l generalizing r with
  | nil => simp [pcLoop, zle_nil_left]
  | cons a ls ih =>
    cases r with
    | nil => simp [pcLoop, zle_nil_right]
    | cons b rs =>
      simp only [pcLoop]
      rw [zle_cons]
      split
      · constructor
        · intro h2
          simp at h2
        · rintro ⟨h2, -⟩
          omega
      · rw [ih]
        constructor
        · intro h2
          exact ⟨by omega, h2⟩
        · rintro ⟨-, h2⟩
          exact h2

theorem pcLoop_gt_iff (l r : List Nat) :
    pcLoop Ordering.gt l r = some Ordering.gt ↔ zge l r := by
  induction l generalizing r with
  | nil => simp [pcLoop, zge_nil_left]
  | cons a ls ih =>
    cases r with
    | nil => simp [pcLoop, zge_nil_right]
    | cons b rs =>
      simp only [pcLoop]
      rw [zge_cons]
      split
      · constructor
        · intro h2
          simp at h2
        · rintro ⟨h2, -⟩
          omega
      · rw [ih]
        constructor
        · intro h2
          exact ⟨by omega, h2⟩
        · rintro ⟨-, h2⟩
          exact h2

theorem pcLoop_eq_eq_iff (l r : List Nat) :
    pcLoop Ordering.eq l r = some Ordering.eq ↔ zeq l r := by
  induction l generalizing r with
  | nil => simp [pcLoop, zeq_nil_left]
  | cons a ls ih =>
    cases r with
    | nil => simp [pcLoop, zeq_nil_right]
    | cons b rs =>
      have hstep : pcLoop Ordering.eq (a :: ls) (b :: rs)
          = pcLoop (cmpN a b) ls rs := rfl
      rw [hstep, zeq_cons]
      rcases Nat.lt_trichotomy a b with h | h | h
      · rw [show cmpN a b = Ordering.lt by simp [cmpN, h]]
        constructor
        · intro h2
          rcases pcLoop_lt_cases ls rs with h3 | h3 <;> rw [h3] at h2 <;>
            simp at h2
        · rintro ⟨h2, -⟩
          omega
      · subst h
        rw [show cmpN a a = Ordering.eq by simp [cmpN]]
        rw [ih]
        simp
      · rw [show cmpN a b = Ordering.gt by
          simp [cmpN]
          omega]
        constructor
        · intro h2
          rcases pcLoop_gt_cases ls rs with h3 | h3 <;> rw [h3] at h2 <;>
            simp at h2
        · rintro ⟨h2, -⟩
          omega

theorem pcLoop_eq_lt_iff (l r : List Nat) :
    pcLoop Ordering.eq l r = some Ordering.lt ↔ zle l r ∧ ¬ zeq l r := by
  induction l generalizing r with
  | nil => simp [pcLoop, zle_nil_left, zeq_nil_left]
  | cons a ls ih =>
    cases r with
    | nil => simp [pcLoop, zle_nil_right, zeq_nil_right]
    | cons b rs =>
      have hstep : pcLoop Ordering.eq (a :: ls) (b :: rs)
          = pcLoop (cmpN a b) ls rs := rfl
      rw [hstep, zle_cons, zeq_cons]
      rcases Nat.lt_trichotomy a b with h | h | h
      · rw [show cmpN a b = Ordering.lt by simp [cmpN, h]]
        rw [pcLoop_lt_iff]
        constructor
        · intro h2
          exact ⟨⟨by omega, h2⟩, by rintro ⟨h3, -⟩; omega⟩
        · rintro ⟨⟨-, h2⟩, -⟩
          exact h2
      · subst h
        rw [show cmpN a a = Ordering.eq by simp [cmpN]]
        rw [ih]
        constructor
        · rintro ⟨h2, h3⟩
          exact ⟨⟨by omega, h2⟩, by rintro ⟨-, h4⟩; exact h3 h4⟩
        · rintro ⟨⟨-, h2⟩, h3⟩
          exact ⟨h2, fun h4 => h3 ⟨rfl, h4⟩⟩
      · rw [show cmpN a b = Ordering.gt by
          simp [cmpN]
          omega]
        constructor
        · intro h2
          rcases pcLoop_gt_cases ls rs with h3 | h3 <;> rw [h3] at h2 <;>
            simp at h2
        · rintro ⟨⟨h2, -⟩, -⟩
          omega

theorem pcLoop_eq_gt_iff (l r : List Nat) :
    pcLoop Ordering.eq l r = some Ordering.gt ↔ zge l r ∧ ¬ zeq l r := by
  induction l generalizing r with
  | nil => simp [pcLoop, zge_nil_left, zeq_nil_left]
  | cons a ls ih =>
    cases r with
    | nil => simp [pcLoop, zge_nil_right, zeq_nil_right]
    | cons b rs =>
      have hstep : pcLoop Ordering.eq (a :: ls) (b :: rs)
          = pcLoop (cmpN a b) ls rs := rfl
      rw [hstep, zge_cons, zeq_cons]
      rcases Nat.lt_trichotomy a b with h | h | h
      · rw [show cmpN a b = Ordering.lt by simp [cmpN, h]]
        constructor
        · intro h2
          rcases pcLoop_lt_cases ls rs with h3 | h3 <;> rw [h3] at h2 <;>
            simp at h2
        · rintro ⟨⟨h2, -⟩, -⟩
          omega
      · subst h
        rw [show cmpN a a = Ordering.eq by simp [cmpN]]
        rw [ih]
        constructor
        · rintro ⟨h2, h3⟩
          exact ⟨⟨by omega, h2⟩, by rintro ⟨-, h4⟩; exact h3 h4⟩
        · rintro ⟨⟨-, h2⟩, h3⟩
          exact ⟨h2, fun h4 => h3 ⟨rfl, h4⟩⟩
      · rw [show cmpN a b = Ordering.gt by
          simp [cmpN]
          omega]
        rw [pcLoop_gt_iff]
        constructor
        · intro h2
          exact ⟨⟨by omega, h2⟩, by rintro ⟨h3, -⟩; omega⟩
        · rintro ⟨⟨-, h2⟩, -⟩
          exact h2

theorem pcLoop_eq_none_iff (l r : List Nat) :
    pcLoop Ordering.eq l r = none ↔ ¬ zle l r ∧ ¬ zge l r := by
  constructor
  · intro h
    constructor
    · intro hle
      by_cases heq : zeq l r
      · rw [(pcLoop_eq_eq_iff l r).mpr heq] at h
        simp at h
      · rw [(pcLoop_eq_lt_iff l r).mpr ⟨hle, heq⟩] at h
        simp at h
    · intro hge
      by_cases heq : zeq l r
      · rw [(pcLoop_eq_eq_iff l r).mpr heq] at h
        simp at h
      · rw [(pcLoop_eq_gt_iff l r).mpr ⟨hge, heq⟩] at h
        simp at h
  · rintro ⟨h1, h2⟩
    rcases option_ordering_cases (pcLoop Ordering.eq l r) with h | h | h | h
    · exact absurd (zeq_zle l r ((pcLoop_eq_eq_iff l r).mp h)) h1
    · exact absurd ((pcLoop_eq_lt_iff l r).mp h).1 h1
    · exact absurd ((pcLoop_eq_gt_iff l r).mp h).1 h2
    · exact h

/-! Characterization of `pcmp` over the zipped-prefix predicates. -/

theorem pcmp_of_none (l r : List Nat) (h : pcLoop Ordering.eq l r = none) :
    pcmp l r = none := by
  unfold pcmp
  rw [h]

theorem pcmp_of_some (l r : List Nat) (ord : Ordering)
    (h : pcLoop Ordering.eq l r = some ord) :
    pcmp l r = lenResolve (cmpN l.length r.length) ord := by
  unfold pcmp
  rw [h]

theorem cmpN_lt (a b : Nat) (h : a < b) : cmpN a b = Ordering.lt := by
  simp [cmpN, h]

theorem cmpN_eq (a : Nat) : cmpN a a = Ordering.eq := by
  simp [cmpN]

theorem cmpN_gt (a b : Nat) (h : b < a) : cmpN a b = Ordering.gt := by
  simp only [cmpN, if_neg (by omega : ¬ a < b), if_neg (by omega : ¬ a = b)]

theorem pcmp_eq_iff (l r : List Nat) :
    pcmp l r = some Ordering.eq ↔ l.length = r.length ∧ zeq l r := by
  rcases option_ordering_cases (pcLoop Ordering.eq l r) with h | h | h | h
  · have hz := (pcLoop_eq_eq_iff l r).mp h
    rw [pcmp_of_some l r _ h]
    rcases Nat.lt_trichotomy l.length r.length with hlen | hlen | hlen
    · rw [cmpN_lt _ _ hlen]
      constructor
      · intro h2
        simp [lenResolve] at h2
      · rintro ⟨h2, -⟩
        omega
    · rw [hlen, cmpN_eq]
      simp [lenResolve, hlen, hz]
    · rw [cmpN_gt _ _ hlen]
      constructor
      · intro h2
        simp [lenResolve] at h2
      · rintro ⟨h2, -⟩
        omega
  · obtain ⟨hle, hne⟩ := (pcLoop_eq_lt_iff l r).mp h
    rw [pcmp_of_some l r _ h]
    constructor
    · intro h2
      rcases Nat.lt_trichotomy l.length r.length with hlen | hlen | hlen
      · rw [cmpN_lt _ _ hlen] at h2
        simp [lenResolve] at h2
      · rw [hlen, cmpN_eq] at h2
        simp [lenResolve] at h2
      · rw [cmpN_gt _ _ hlen] at h2
        simp [lenResolve] at h2
    · rintro ⟨-, h2⟩
      exact absurd h2 hne
  · obtain ⟨hge, hne⟩ := (pcLoop_eq_gt_iff l r).mp h
    rw [pcmp_of_some l r _ h]
    constructor
    · intro h2
      rcases Nat.lt_trichotomy l.length r.length with hlen | hlen | hlen
      · rw [cmpN_lt _ _ hlen] at h2
        simp [lenResolve] at h2
      · rw [hlen, cmpN_eq] at h2
        simp [lenResolve] at h2
      · rw [cmpN_gt _ _ hlen] at h2
        simp [lenResolve] at h2
    · rintro ⟨-, h2⟩
      exact absurd h2 hne
  · obtain ⟨h1, -⟩ := (pcLoop_eq_none_iff l r).mp h
    rw [pcmp_of_none l r h]
    constructor
    · intro h2
      simp at h2
    · rintro ⟨-, h2⟩
      exact absurd (zeq_zle l r h2) h1

theorem pcmp_lt_iff (l r : List Nat) :
    pcmp l r = some Ordering.lt ↔
      zle l r ∧ (l.length < r.length ∨
        (l.length = r.length ∧ ¬ zeq l r)) := by
  rcases option_ordering_cases (pcLoop Ordering.eq l r) with h | h | h | h
  · have hz := (pcLoop_eq_eq_iff l r).mp h
    rw [pcmp_of_some l r _ h]
    rcases Nat.lt_trichotomy l.length r.length with hlen | hlen | hlen
    · rw [cmpN_lt _ _ hlen]
      simp only [lenResolve]
      constructor
      · intro h2
        exact ⟨zeq_zle l r hz, Or.inl hlen⟩
      · intro h2
        trivial
    · rw [hlen, cmpN_eq]
      constructor
      · intro h2
        simp [lenResolve] at h2
      · rintro ⟨-, h2 | h2⟩
        · omega
        · exact absurd hz h2.2
    · rw [cmpN_gt _ _ hlen]
      constructor
      · intro h2
        simp [lenResolve] at h2
      · rintro ⟨-, h2 | h2⟩ <;> omega
  · obtain ⟨hle, hne⟩ := (pcLoop_eq_lt_iff l r).mp h
    rw [pcmp_of_some l r _ h]
    rcases Nat.lt_trichotomy l.length r.length with hlen | hlen | hlen
    · rw [cmpN_lt _ _ hlen]
      simp only [lenResolve]
      exact ⟨fun _ => ⟨hle, Or.inl hlen⟩, fun _ => trivial⟩
    · rw [hlen, cmpN_eq]
      simp only [lenResolve]
      exact ⟨fun _ => ⟨hle, Or.inr ⟨trivial, hne⟩⟩, fun _ => trivial⟩
    · rw [cmpN_gt _ _ hlen]
      constructor
      · intro h2
        simp [lenResolve] at h2
      · rintro ⟨-, h2 | h2⟩ <;> omega
  · obtain ⟨hge, hne⟩ := (pcLoop_eq_gt_iff l r).mp h
    rw [pcmp_of_some l r _ h]
    have hnle : ¬ zle l r := fun h2 => hne (zeq_of_zle_zge l r h2 hge)
    rcases Nat.lt_trichotomy l.length r.length with hlen | hlen | hlen
    · rw [cmpN_lt _ _ hlen]
      constructor
      · intro h2
        simp [lenResolve] at h2
      · rintro ⟨h2, -⟩
        exact absurd h2 hnle
    · rw [hlen, cmpN_eq]
      constructor
      · intro h2
        simp [lenResolve] at h2
      · rintro ⟨h2, -⟩
        exact absurd h2 hnle
    · rw [cmpN_gt _ _ hlen]
      constructor
      · intro h2
        simp [lenResolve] at h2
      · rintro ⟨h2, -⟩
        exact absurd h2 hnle
  · obtain ⟨h1, -⟩ := (pcLoop_eq_none_iff l r).mp h
    rw [pcmp_of_none l r h]
    constructor
    · intro h2
      simp at h2
    · rintro ⟨h2, -⟩
      exact absurd h2 h1

theorem pcmp_gt_iff (l r : List Nat) :
    pcmp l r = some Ordering.gt ↔
      zge l r ∧ (r.length < l.length ∨
        (l.length = r.length ∧ ¬ zeq l r)) := by
  rcases option_ordering_cases (pcLoop Ordering.eq l r) with h | h | h | h
  · have hz := (pcLoop_eq_eq_iff l r).mp h
    rw [pcmp_of_some l r _ h]
    rcases Nat.lt_trichotomy l.length r.length with hlen | hlen | hlen
    · rw [cmpN_lt _ _ hlen]
      constructor
      · intro h2
        simp [lenResolve] at h2
      · rintro ⟨-, h2 | h2⟩ <;> omega
    · rw [hlen, cmpN_eq]
      constructor
      · intro h2
        simp [lenResolve] at h2
      · rintro ⟨-, h2 | h2⟩
        · omega
        · exact absurd hz h2.2
    · rw [cmpN_gt _ _ hlen]
      simp only [lenResolve]
      exact ⟨fun _ => ⟨zeq_zge l r hz, Or.inl hlen⟩, fun _ => trivial⟩
  · obtain ⟨hle, hne⟩ := (pcLoop_eq_lt_iff l r).mp h
    rw [pcmp_of_some l r _ h]
    have hnge : ¬ zge l r := fun h2 => hne (zeq_of_zle_zge l r hle h2)
    rcases Nat.lt_trichotomy l.length r.length with hlen | hlen | hlen
    · rw [cmpN_lt _ _ hlen]
      constructor
      · intro h2
        simp [lenResolve] at h2
      · rintro ⟨h2, -⟩
        exact absurd h2 hnge
    · rw [hlen, cmpN_eq]
      constructor
      · intro h2
        simp [lenResolve] at h2
      · rintro ⟨h2, -⟩
        exact absurd h2 hnge
    · rw [cmpN_gt _ _ hlen]
      constructor
      · intro h2
        simp [lenResolve] at h2
      · rintro ⟨h2, -⟩
        exact absurd h2 hnge
  · obtain ⟨hge, hne⟩ := (pcLoop_eq_gt_iff l r).mp h
    rw [pcmp_of_some l r _ h]
    rcases Nat.lt_trichotomy l.length r.length with hlen | hlen | hlen
    · rw [cmpN_lt _ _ hlen]
      constructor
      · intro h2
        simp [lenResolve] at h2
      · rintro ⟨-, h2 | h2⟩ <;> omega
    · rw [hlen, cmpN_eq]
      simp only [lenResolve]
      exact ⟨fun _ => ⟨hge, Or.inr ⟨trivial, hne⟩⟩, fun _ => trivial⟩
    · rw [cmpN_gt _ _ hlen]
      simp only [lenResolve]
      exact ⟨fun _ => ⟨hge, Or.inl hlen⟩, fun _ => trivial⟩
  · obtain ⟨-, h2⟩ := (pcLoop_eq_none_iff l r).mp h
    rw [pcmp_of_none l r h]
    constructor
    · intro h3
      simp at h3
    · rintro ⟨h3, -⟩
      exact absurd h3 h2

/-! Bridging the zipped-prefix predicates to the full pointwise order,
using the canonicalization invariant for the length arguments. -/

theorem zle_iff_leV (l r : List Nat) (h : l.length ≤ r.length) :
    zle l r ↔ leV l r := by
  constructor
  · intro hz i
    rcases Nat.lt_or_ge i l.length with hi | hi
    · exact hz i (by omega)
    · rw [slot_of_length_le l i hi]
      exact Nat.zero_le _
  · intro hv i hi
    exact hv i

theorem zeq_iff_eqV (l r : List Nat) (h : l.length = r.length) :
    zeq l r ↔ eqV l r := by
  constructor
  · intro hz i
    rcases Nat.lt_or_ge i l.length with hi | hi
    · exact hz i (by omega)
    · rw [slot_of_length_le l i hi, slot_of_length_le r i (by omega)]
  · intro hv i hi
    exact hv i

theorem zge_iff_zle (l r : List Nat) : zge l r ↔ zle r l := by
  unfold zge zle
  constructor <;> intro h i hi <;> exact h i (by omega)

theorem zeq_comm (l r : List Nat) : zeq l r ↔ zeq r l := by
  unfold zeq
  constructor <;> intro h i hi <;> exact (h i (by omega)).symm

theorem length_le_of_leV (l r : List Nat) (hl : canonical l) (h : leV l r) :
    l.length ≤ r.length := by
  by_contra hc
  push_neg at hc
  have hne : l ≠ [] := by
    intro h0
    subst h0
    simp at hc
  have hlast := canonical_last_pos l hl hne
  have h2 := h (l.length - 1)
  rw [slot_of_length_le r (l.length - 1) (by omega)] at h2
  omega

theorem strict_of_length_lt (l r : List Nat) (hr : canonical r)
    (h : l.length < r.length) :
    slot l (r.length - 1) < slot r (r.length - 1) := by
  have hne : r ≠ [] := by
    intro h0
    subst h0
    simp at h
  have := canonical_last_pos r hr hne
  rw [slot_of_length_le l _ (by omega)]
  omega

theorem length_eq_of_eqV (l r : List Nat) (hl : canonical l)
    (hr : canonical r) (h : eqV l r) : l.length = r.length := by
  rcases Nat.lt_trichotomy l.length r.length with hc | hc | hc
  · have := strict_of_length_lt l r hr hc
    have h2 := h (r.length - 1)
    omega
  · exact hc
  · have := strict_of_length_lt r l hl hc
    have h2 := h (l.length - 1)
    omega

/-! ### C1: partial_cmp decides the pointwise partial order -/

/-- C1: for canonical clocks, `partial_cmp` returns `Equal` iff the
clocks are pointwise equal under zero extension, `Less`/`Greater` iff
the corresponding pointwise dominance holds with some strict slot, and
`None` iff the clocks are pointwise incomparable. -/
theorem C1_pcmp_pointwise_spec (l r : List Nat)
    (hl : canonical l) (hr : canonical r) :
    (pcmp l r = some Ordering.eq ↔ eqV l r) ∧
    (pcmp l r = some Ordering.lt ↔ leV l r ∧ ∃ i, slot l i < slot r i) ∧
    (pcmp l r = some Ordering.gt ↔ leV r l ∧ ∃ i, slot r i < slot l i) ∧
    (pcmp l r = none ↔ ¬ leV l r ∧ ¬ leV r l) := by
  have heq : pcmp l r = some Ordering.eq ↔ eqV l r := by
    rw [pcmp_eq_iff]
    constructor
    · rintro ⟨hlen, hz⟩
      exact (zeq_iff_eqV l r hlen).mp hz
    · intro hv
      have hlen := length_eq_of_eqV l r hl hr hv
      exact ⟨hlen, (zeq_iff_eqV l r hlen).mpr hv⟩
  have hlt : pcmp l r = some Ordering.lt ↔
      leV l r ∧ ∃ i, slot l i < slot r i := by
    rw [pcmp_lt_iff]
    constructor
    · rintro ⟨hz, hlen | ⟨hlen, hnz⟩⟩
      · exact ⟨(zle_iff_leV l r (by omega)).mp hz,
          r.length - 1, strict_of_length_lt l r hr hlen⟩
      · refine ⟨(zle_iff_leV l r (by omega)).mp hz, ?_⟩
        by_contra hno
        push_neg at hno
        exact hnz fun i hi => Nat.le_antisymm (hz i hi) (hno i)
    · rintro ⟨hle, i, hi⟩
      have hlen := length_le_of_leV l r hl hle
      refine ⟨(zle_iff_leV l r hlen).mpr hle, ?_⟩
      rcases Nat.lt_or_ge l.length r.length with hc | hc
      · exact Or.inl hc
      · refine Or.inr ⟨by omega, fun hz => ?_⟩
        have hir : i < r.length := by
          by_contra hge2
          push_neg at hge2
          rw [slot_of_length_le r i hge2] at hi
          omega
        have := hz i (by omega)
        omega
  have hgt : pcmp l r = some Ordering.gt ↔
      leV r l ∧ ∃ i, slot r i < slot l i := by
    rw [pcmp_gt_iff]
    constructor
    · rintro ⟨hz, hlen | ⟨hlen, hnz⟩⟩
      · exact ⟨(zle_iff_leV r l (by omega)).mp ((zge_iff_zle l r).mp hz),
          l.length - 1, strict_of_length_lt r l hl hlen⟩
      · refine ⟨(zle_iff_leV r l (by omega)).mp ((zge_iff_zle l r).mp hz), ?_⟩
        by_contra hno
        push_neg at hno
        exact hnz fun i hi => Nat.le_antisymm (hno i) (hz i hi)
    · rintro ⟨hle, i, hi⟩
      have hlen := length_le_of_leV r l hr hle
      refine ⟨(zge_iff_zle l r).mpr ((zle_iff_leV r l hlen).mpr hle), ?_⟩
      rcases Nat.lt_or_ge r.length l.length with hc | hc
      · exact Or.inl hc
      · refine Or.inr ⟨by omega, fun hz => ?_⟩
        have hir : i < l.length := by
          by_contra hge2
          push_neg at hge2
          rw [slot_of_length_le l i hge2] at hi
          omega
        have := hz i (by omega)
        omega
  have hnone : pcmp l r = none ↔ ¬ leV l r ∧ ¬ leV r l := by
    constructor
    · intro h
      constructor
      · intro hle
        by_cases hv : eqV l r
        · rw [heq.mpr hv] at h
          simp at h
        · have hstrict : ∃ i, slot l i < slot r i := by
            by_contra hno
            push_neg at hno
            exact hv fun i => Nat.le_antisymm (hle i) (hno i)
          rw [hlt.mpr ⟨hle, hstrict⟩] at h
          simp at h
      · intro hle
        by_cases hv : eqV l r
        · rw [heq.mpr hv] at h
          simp at h
        · have hstrict : ∃ i, slot r i < slot l i := by
            by_contra hno
            push_neg at hno
            exact hv fun i => Nat.le_antisymm (hno i) (hle i)
          rw [hgt.mpr ⟨hle, hstrict⟩] at h
          simp at h
    · rintro ⟨h1, h2⟩
      rcases option_ordering_cases (pcmp l r) with h | h | h | h
      · exact absurd (fun i => (heq.mp h i).le) h1
      · exact absurd (hlt.mp h).1 h1
      · exact absurd (hgt.mp h).1 h2
      · exact h
  exact ⟨heq, hlt, hgt, hnone⟩

/-- Witness for C1 at the canonical clocks `[2]` and `[1, 2]` (the
incomparable pair of the source's test suite). -/
theorem C1_pcmp_witness :
    (pcmp [2] [1, 2] = some Ordering.eq ↔ eqV [2] [1, 2]) ∧
    (pcmp [2] [1, 2] = some Ordering.lt ↔
      leV [2] [1, 2] ∧ ∃ i, slot [2] i < slot [1, 2] i) ∧
    (pcmp [2] [1, 2] = some Ordering.gt ↔
      leV [1, 2] [2] ∧ ∃ i, slot [1, 2] i < slot [2] i) ∧
    (pcmp [2] [1, 2] = none ↔ ¬ leV [2] [1, 2] ∧ ¬ leV [1, 2] [2]) :=
  C1_pcmp_pointwise_spec [2] [1, 2] (by decide) (by decide)

/-! Characterization of the four fast boolean relational operators. -/

theorem ltLoop_iff (e : Bool) (l r : List Nat) :
    ltLoop e l r = true ↔ zle l r ∧ ¬ (e = true ∧ zeq l r) := by
  induction l generalizing r e with
  | nil =>
    cases e <;> simp [ltLoop, zle_nil_left, zeq_nil_left]
  | cons a ls ih =>
    cases r with
    | nil =>
      cases e <;> simp [ltLoop, zle_nil_right, zeq_nil_right]
    | cons b rs =>
      simp only [ltLoop]
      by_cases hba : b < a
      · rw [if_pos hba]
        constructor
        · intro h2
          simp at h2
        · rintro ⟨h2, -⟩
          rw [zle_cons] at h2
          omega
      · rw [if_neg hba, ih, zle_cons, zeq_cons]
        by_cases hlt : a < b
        · have hd : decide (a < b) = true := by simp [hlt]
          rw [hd]
          simp only [Bool.not_true, Bool.and_false]
          constructor
          · rintro ⟨h2, -⟩
            exact ⟨⟨by omega, h2⟩, by rintro ⟨-, h3, -⟩; omega⟩
          · rintro ⟨⟨-, h2⟩, -⟩
            refine ⟨h2, ?_⟩
            rintro ⟨h3, -⟩
            simp at h3
        · have heq : a = b := by omega
          subst heq
          have hd : decide (a < a) = false := by simp
          rw [hd]
          simp only [Bool.not_false, Bool.and_true]
          constructor
          · rintro ⟨h2, h3⟩
            exact ⟨⟨Nat.le_refl a, h2⟩, by rintro ⟨h4, -, h5⟩; exact h3 ⟨h4, h5⟩⟩
          · rintro ⟨⟨-, h2⟩, h3⟩
            exact ⟨h2, by rintro ⟨h4, h5⟩; exact h3 ⟨h4, trivial, h5⟩⟩

theorem gtLoop_iff (e : Bool) (l r : List Nat) :
    gtLoop e l r = true ↔ zge l r ∧ ¬ (e = true ∧ zeq l r) := by
  induction l generalizing r e with
  | nil =>
    cases e <;> simp [gtLoop, zge_nil_left, zeq_nil_left]
  | cons a ls ih =>
    cases r with
    | nil =>
      cases e <;> simp [gtLoop, zge_nil_right, zeq_nil_right]
    | cons b rs =>
      simp only [gtLoop]
      by_cases hab : a < b
      · rw [if_pos hab]
        constructor
        · intro h2
          simp at h2
        · rintro ⟨h2, -⟩
          rw [zge_cons] at h2
          omega
      · rw [if_neg hab, ih, zge_cons, zeq_cons]
        by_cases hlt : b < a
        · have hd : decide (b < a) = true := by simp [hlt]
          rw [hd]
          simp only [Bool.not_true, Bool.and_false]
          constructor
          · rintro ⟨h2, -⟩
            exact ⟨⟨by omega, h2⟩, by rintro ⟨-, h3, -⟩; omega⟩
          · rintro ⟨⟨-, h2⟩, -⟩
            refine ⟨h2, ?_⟩
            rintro ⟨h3, -⟩
            simp at h3
        · have heq : b = a := by omega
          subst heq
          have hd : decide (b < b) = false := by simp
          rw [hd]
          simp only [Bool.not_false, Bool.and_true]
          constructor
          · rintro ⟨h2, h3⟩
            exact ⟨⟨Nat.le_refl b, h2⟩, by rintro ⟨h4, -, h5⟩; exact h3 ⟨h4, h5⟩⟩
          · rintro ⟨⟨-, h2⟩, h3⟩
            exact ⟨h2, by rintro ⟨h4, h5⟩; exact h3 ⟨h4, trivial, h5⟩⟩

theorem leLoop_iff (l r : List Nat) : leLoop l r = true ↔ zle l r := by
  induction l generalizing r with
  | nil => simp [leLoop, zle_nil_left]
  | cons a ls ih =>
    cases r with
    | nil => simp [leLoop, zle_nil_right]
    | cons b rs =>
      simp only [leLoop]
      by_cases hba : b < a
      · rw [if_pos hba, zle_cons]
        constructor
        · intro h2
          simp at h2
        · rintro ⟨h2, -⟩
          omega
      · rw [if_neg hba, ih, zle_cons]
        exact ⟨fun h2 => ⟨by omega, h2⟩, fun h2 => h2.2⟩

theorem geLoop_iff (l r : List Nat) : geLoop l r = true ↔ zge l r := by
  induction l generalizing r with
  | nil => simp [geLoop, zge_nil_left]
  | cons a ls ih =>
    cases r with
    | nil => simp [geLoop, zge_nil_right]
    | cons b rs =>
      simp only [geLoop]
      by_cases hab : a < b
      · rw [if_pos hab, zge_cons]
        constructor
        · intro h2
          simp at h2
        · rintro ⟨h2, -⟩
          omega
      · rw [if_neg hab, ih, zge_cons]
        exact ⟨fun h2 => ⟨by omega, h2⟩, fun h2 => h2.2⟩

theorem ltB_iff (l r : List Nat) :
    ltB l r = true ↔ l.length ≤ r.length ∧ zle l r ∧
      ¬ (l.length = r.length ∧ zeq l r) := by
  unfold ltB
  by_cases hlen : l.length ≤ r.length
  · rw [if_pos hlen, ltLoop_iff]
    rw [show ((l.length == r.length) = true) = (l.length = r.length) from by
      simp]
    constructor
    · rintro ⟨h2, h3⟩
      exact ⟨hlen, h2, h3⟩
    · rintro ⟨-, h2, h3⟩
      exact ⟨h2, h3⟩
  · rw [if_neg hlen]
    constructor
    · intro h2
      simp at h2
    · rintro ⟨h2, -⟩
      omega

theorem leB_iff (l r : List Nat) :
    leB l r = true ↔ l.length ≤ r.length ∧ zle l r := by
  unfold leB
  by_cases hlen : l.length ≤ r.length
  · rw [if_pos hlen, leLoop_iff]
    exact ⟨fun h2 => ⟨hlen, h2⟩, fun h2 => h2.2⟩
  · rw [if_neg hlen]
    constructor
    · intro h2
      simp at h2
    · rintro ⟨h2, -⟩
      omega

theorem gtB_iff (l r : List Nat) :
    gtB l r = true ↔ r.length ≤ l.length ∧ zge l r ∧
      ¬ (l.length = r.length ∧ zeq l r) := by
  unfold gtB
  by_cases hlen : r.length ≤ l.length
  · rw [if_pos hlen, gtLoop_iff]
    rw [show ((l.length == r.length) = true) = (l.length = r.length) from by
      simp]
    constructor
    · rintro ⟨h2, h3⟩
      exact ⟨hlen, h2, h3⟩
    · rintro ⟨-, h2, h3⟩
      exact ⟨h2, h3⟩
  · rw [if_neg hlen]
    constructor
    · intro h2
      simp at h2
    · rintro ⟨h2, -⟩
      omega

theorem geB_iff (l r : List Nat) :
    geB l r = true ↔ r.length ≤ l.length ∧ zge l r := by
  unfold geB
  by_cases hlen : r.length ≤ l.length
  · rw [if_pos hlen, geLoop_iff]
    exact ⟨fun h2 => ⟨hlen, h2⟩, fun h2 => h2.2⟩
  · rw [if_neg hlen]
    constructor
    · intro h2
      simp at h2
    · rintro ⟨h2, -⟩
      omega

/-! ### C2: the fast boolean relations agree with partial_cmp -/

/-- C2: for canonical clocks, the dedicated `lt`, `le`, `gt`, `ge`
implementations agree with the three-way `partial_cmp` result. -/
theorem C2_bool_ops_agree (l r : List Nat)
    (hl : canonical l) (hr : canonical r) :
    (ltB l r = true ↔ pcmp l r = some Ordering.lt) ∧
    (leB l r = true ↔
      (pcmp l r = some Ordering.lt ∨ pcmp l r = some Ordering.eq)) ∧
    (gtB l r = true ↔ pcmp l r = some Ordering.gt) ∧
    (geB l r = true ↔
      (pcmp l r = some Ordering.gt ∨ pcmp l r = some Ordering.eq)) := by
  refine ⟨?_, ?_, ?_, ?_⟩
  · rw [ltB_iff, pcmp_lt_iff]
    constructor
    · rintro ⟨h1, h2, h3⟩
      refine ⟨h2, ?_⟩
      rcases Nat.lt_or_ge l.length r.length with hc | hc
      · exact Or.inl hc
      · have hleq : l.length = r.length := by omega
        exact Or.inr ⟨hleq, fun hz => h3 ⟨hleq, hz⟩⟩
    · rintro ⟨h2, hc | ⟨hleq, hnz⟩⟩
      · exact ⟨by omega, h2, by rintro ⟨h4, -⟩; omega⟩
      · exact ⟨by omega, h2, by rintro ⟨-, h5⟩; exact hnz h5⟩
  · rw [leB_iff, pcmp_lt_iff, pcmp_eq_iff]
    constructor
    · rintro ⟨h1, h2⟩
      rcases Nat.lt_or_ge l.length r.length with hc | hc
      · exact Or.inl ⟨h2, Or.inl hc⟩
      · have hleq : l.length = r.length := by omega
        by_cases hz : zeq l r
        · exact Or.inr ⟨hleq, hz⟩
        · exact Or.inl ⟨h2, Or.inr ⟨hleq, hz⟩⟩
    · rintro (⟨h2, hc | ⟨hleq, -⟩⟩ | ⟨hleq, hz⟩)
      · exact ⟨by omega, h2⟩
      · exact ⟨by omega, h2⟩
      · exact ⟨by omega, zeq_zle l r hz⟩
  · rw [gtB_iff, pcmp_gt_iff]
    constructor
    · rintro ⟨h1, h2, h3⟩
      refine ⟨h2, ?_⟩
      rcases Nat.lt_or_ge r.length l.length with hc | hc
      · exact Or.inl hc
      · have hleq : l.length = r.length := by omega
        exact Or.inr ⟨hleq, fun hz => h3 ⟨hleq, hz⟩⟩
    · rintro ⟨h2, hc | ⟨hleq, hnz⟩⟩
      · exact ⟨by omega, h2, by rintro ⟨h4, -⟩; omega⟩
      · exact ⟨by omega, h2, by rintro ⟨-, h5⟩; exact hnz h5⟩
  · rw [geB_iff, pcmp_gt_iff, pcmp_eq_iff]
    constructor
    · rintro ⟨h1, h2⟩
      rcases Nat.lt_or_ge r.length l.length with hc | hc
      · exact Or.inl ⟨h2, Or.inl hc⟩
      · have hleq : l.length = r.length := by omega
        by_cases hz : zeq l r
        · exact Or.inr ⟨hleq, hz⟩
        · exact Or.inl ⟨h2, Or.inr ⟨hleq, hz⟩⟩
    · rintro (⟨h2, hc | ⟨hleq, -⟩⟩ | ⟨hleq, hz⟩)
      · exact ⟨by omega, h2⟩
      · exact ⟨by omega, h2⟩
      · exact ⟨by omega, zeq_zge l r hz⟩

/-- Witness for C2 at the canonical clocks `[2]` and `[1, 2]`. -/
theorem C2_bool_ops_witness :
    (ltB [2] [1, 2] = true ↔ pcmp [2] [1, 2] = some Ordering.lt) ∧
    (leB [2] [1, 2] = true ↔
      (pcmp [2] [1, 2] = some Ordering.lt ∨
        pcmp [2] [1, 2] = some Ordering.eq)) ∧
    (gtB [2] [1, 2] = true ↔ pcmp [2] [1, 2] = some Ordering.gt) ∧
    (geB [2] [1, 2] = true ↔
      (pcmp [2] [1, 2] = some Ordering.gt ∨
        pcmp [2] [1, 2] = some Ordering.eq)) :=
  C2_bool_ops_agree [2] [1, 2] (by decide) (by decide)

end VC
